import Mathlib

/-!
Verification of the serenity-utils token parser library.

Strings are embedded as `List Char`.  The parser implementations themselves
(`parse_quotes`, `parse_invite`, `parse_username`, `parse_role`,
`parse_channel`, `parse_emoji`) are not among the provided source files
(only their tests, benchmarks and the surrounding builder/error plumbing
are), so those functions are modelled from the specification's own
description of them; the builder (`CreateMessage`) and the error wrapper
(`Error`) are embedded from their Rust sources.
-/

namespace SerenityUtils

/-! ## Quoted-argument tokenizer -/

/-- The two states of the tokenizer's state machine (spec §4.3). -/
inductive QState where
  | Outside
  | Inside
deriving DecidableEq

/-- A `"` character toggles between `Outside` and `Inside`. -/
def QState.toggle : QState → QState
  | QState.Outside => QState.Inside
  | QState.Inside => QState.Outside

/-- Modelled from the spec: the state machine of `parse_quotes` (§4.3),
whose Rust source is not among the provided files.  A `"` toggles the state
and is consumed; a space in `Outside` state flushes a non-empty buffer (and
is skipped on an empty buffer); a space in `Inside` state is ordinary
content; any other character is appended to the buffer; at end of input a
non-empty buffer is flushed regardless of state. -/
def parseQuotesAux : QState → List Char → List Char → List (List Char)
  | _, buf, [] => if buf = [] then [] else [buf]
  | st, buf, c :: cs =>
    if c = '"' then parseQuotesAux st.toggle buf cs
    else if c = ' ' then
      match st with
      | QState.Outside =>
        if buf = [] then parseQuotesAux QState.Outside [] cs
        else buf :: parseQuotesAux QState.Outside [] cs
      | QState.Inside => parseQuotesAux QState.Inside (buf ++ [c]) cs
    else parseQuotesAux st (buf ++ [c]) cs

/-- Modelled from the spec: `parse_quotes` starts the machine in state
`Outside` with an empty buffer. -/
def parse_quotes (s : List Char) : List (List Char) :=
  parseQuotesAux QState.Outside [] s

theorem parseQuotesAux_nil (st : QState) (buf : List Char) :
    parseQuotesAux st buf [] = if buf = [] then [] else [buf] := by
  cases st <;> rfl

theorem parseQuotesAux_quote (st : QState) (buf cs : List Char) :
    parseQuotesAux st buf ('"' :: cs) = parseQuotesAux st.toggle buf cs := by
  cases st <;> simp [parseQuotesAux]

theorem parseQuotesAux_space_outside (buf cs : List Char) :
    parseQuotesAux QState.Outside buf (' ' :: cs) =
      if buf = [] then parseQuotesAux QState.Outside [] cs
      else buf :: parseQuotesAux QState.Outside [] cs := by
  simp [parseQuotesAux]

theorem parseQuotesAux_space_inside (buf cs : List Char) :
    parseQuotesAux QState.Inside buf (' ' :: cs) =
      parseQuotesAux QState.Inside (buf ++ [' ']) cs := by
  simp [parseQuotesAux]

theorem parseQuotesAux_other (st : QState) (buf cs : List Char) (c : Char)
    (hq : c ≠ '"') (hs : c ≠ ' ') :
    parseQuotesAux st buf (c :: cs) = parseQuotesAux st (buf ++ [c]) cs := by
  cases st <;> simp [parseQuotesAux, hq, hs]

/-- Characters that are neither `"` nor a space pass through the machine as
buffer content in every state. -/
theorem parseQuotesAux_append_plain :
    ∀ (t : List Char), (∀ c ∈ t, c ≠ '"' ∧ c ≠ ' ') →
      ∀ (st : QState) (buf cs : List Char),
        parseQuotesAux st buf (t ++ cs) = parseQuotesAux st (buf ++ t) cs
  | [], _, st, buf, cs => by simp
  | c :: t, h, st, buf, cs => by
    obtain ⟨hq, hs⟩ := h c (by simp)
    rw [List.cons_append, parseQuotesAux_other st buf (t ++ cs) c hq hs,
      parseQuotesAux_append_plain t (fun x hx => h x (by simp [hx])) st (buf ++ [c]) cs]
    simp

/-- In `Inside` state every quote-free run is appended to the buffer. -/
theorem parseQuotesAux_append_inside :
    ∀ (t : List Char), '"' ∉ t →
      ∀ (buf cs : List Char),
        parseQuotesAux QState.Inside buf (t ++ cs) =
          parseQuotesAux QState.Inside (buf ++ t) cs
  | [], _, buf, cs => by simp
  | c :: t, h, buf, cs => by
    have ht : '"' ∉ t := fun hx => h (List.mem_cons_of_mem _ hx)
    have hq : c ≠ '"' := fun e => h (by simp [e])
    by_cases hs : c = ' '
    · subst hs
      rw [List.cons_append, parseQuotesAux_space_inside,
        parseQuotesAux_append_inside t ht (buf ++ [' ']) cs]
      simp
    · rw [List.cons_append, parseQuotesAux_other _ _ _ c hq hs,
        parseQuotesAux_append_inside t ht (buf ++ [c]) cs]
      simp

/-- Re-quote a token that contains a space (round-trip reconstruction step). -/
def quoteIfSpace (t : List Char) : List Char :=
  if ' ' ∈ t then '"' :: (t ++ ['"']) else t

/-- Join a token list with single spaces, re-quoting any token that contains
a space. -/
def reconstruct : List (List Char) → List Char
  | [] => []
  | [t] => quoteIfSpace t
  | t :: ts => quoteIfSpace t ++ ' ' :: reconstruct ts

/-- Processing a re-quoted quote-free token from `Outside` state appends the
token to the buffer and returns to `Outside` state. -/
theorem parseQuotesAux_quoteIfSpace (t : List Char) (h : '"' ∉ t)
    (buf cs : List Char) :
    parseQuotesAux QState.Outside buf (quoteIfSpace t ++ cs) =
      parseQuotesAux QState.Outside (buf ++ t) cs := by
  unfold quoteIfSpace
  by_cases hsp : ' ' ∈ t
  · simp only [if_pos hsp]
    rw [List.cons_append, parseQuotesAux_quote]
    have he : (t ++ ['"']) ++ cs = t ++ ('"' :: cs) := by simp
    rw [show QState.toggle QState.Outside = QState.Inside from rfl, he,
      parseQuotesAux_append_inside t h buf ('"' :: cs), parseQuotesAux_quote]
    rfl
  · simp only [if_neg hsp]
    exact parseQuotesAux_append_plain t
      (fun c hc => ⟨fun e => h (e ▸ hc), fun e => hsp (e ▸ hc)⟩) _ buf cs

/-- Parsing the reconstruction of a list of non-empty quote-free tokens
returns exactly that list. -/
theorem parse_reconstruct :
    ∀ (ts : List (List Char)), (∀ t ∈ ts, t ≠ [] ∧ '"' ∉ t) →
      parseQuotesAux QState.Outside [] (reconstruct ts) = ts
  | [], _ => by simp [reconstruct, parseQuotesAux_nil]
  | [t], h => by
    obtain ⟨hne, hq⟩ := h t (by simp)
    rw [show reconstruct [t] = quoteIfSpace t from rfl,
      ← List.append_nil (quoteIfSpace t), parseQuotesAux_quoteIfSpace t hq [] [],
      List.nil_append, parseQuotesAux_nil, if_neg hne]
  | t :: t' :: ts, h => by
    obtain ⟨hne, hq⟩ := h t (by simp)
    rw [show reconstruct (t :: t' :: ts) =
        quoteIfSpace t ++ ' ' :: reconstruct (t' :: ts) from rfl,
      parseQuotesAux_quoteIfSpace t hq [] _, List.nil_append,
      parseQuotesAux_space_outside, if_neg hne,
      parse_reconstruct (t' :: ts) (fun x hx => h x (by simp [hx]))]

/-- Every token the machine emits from a quote-free buffer is non-empty and
quote-free. -/
theorem parseQuotesAux_tokens_wf :
    ∀ (input : List Char) (st : QState) (buf : List Char), '"' ∉ buf →
      ∀ t ∈ parseQuotesAux st buf input, t ≠ [] ∧ '"' ∉ t
  | [], st, buf, hb => by
    rw [parseQuotesAux_nil]
    by_cases h : buf = []
    · simp [h]
    · simp only [if_neg h, List.mem_singleton]
      rintro t rfl
      exact ⟨h, hb⟩
  | c :: cs, st, buf, hb => by
    by_cases hq : c = '"'
    · subst hq
      rw [parseQuotesAux_quote]
      exact parseQuotesAux_tokens_wf cs st.toggle buf hb
    · by_cases hs : c = ' '
      · subst hs
        cases st with
        | Outside =>
          rw [parseQuotesAux_space_outside]
          by_cases hbe : buf = []
          · simp only [if_pos hbe]
            exact parseQuotesAux_tokens_wf cs QState.Outside [] (by simp)
          · simp only [if_neg hbe]
            intro t ht
            rcases List.mem_cons.mp ht with rfl | ht
            · exact ⟨hbe, hb⟩
            · exact parseQuotesAux_tokens_wf cs QState.Outside [] (by simp) t ht
        | Inside =>
          rw [parseQuotesAux_space_inside]
          refine parseQuotesAux_tokens_wf cs QState.Inside (buf ++ [' ']) ?_
          simp only [List.mem_append, List.mem_singleton]
          rintro (h | h)
          · exact hb h
          · exact absurd h (by decide)
      · rw [parseQuotesAux_other st buf cs c hq hs]
        refine parseQuotesAux_tokens_wf cs st (buf ++ [c]) ?_
        simp only [List.mem_append, List.mem_singleton]
        rintro (h | h)
        · exact hb h
        · exact hq h.symm

/-- C8: for every input, joining the tokens of `parse_quotes` with single
spaces (re-quoting any token containing a space) and re-parsing yields the
original token list. -/
theorem parse_quotes_roundtrip (s : List Char) :
    parse_quotes (reconstruct (parse_quotes s)) = parse_quotes s := by
  unfold parse_quotes
  exact parse_reconstruct _ (parseQuotesAux_tokens_wf s QState.Outside [] (by simp))

/-- C1 counterexample: on the input `a "b c" d"e f"  g` the spec's state
machine does not return the five tokens `a`, `b c`, `d`, `e f`, `g`: the
adjacent runs `d` and `"e f"` merge into the single token `de f` because no
boundary is emitted on a quote toggle. -/
theorem c1_five_token_counterexample :
    parse_quotes ("a \"b c\" d\"e f\"  g".toList) ≠
      ["a".toList, "b c".toList, "d".toList, "e f".toList, "g".toList] := by
  decide

/-- C1 (amended): the tokenizer emits a boundary only on an `Outside`-state
space with a non-empty buffer, never on a quote toggle, so `a"b c"d` is the
single token `ab cd`, `"a""b"` is the single token `ab`, and
`a "b c" d"e f"  g` yields the four tokens `a`, `b c`, `de f`, `g`. -/
theorem c1_amended_quote_boundaries :
    parse_quotes ("a\"b c\"d".toList) = ["ab cd".toList] ∧
    parse_quotes ("\"a\"\"b\"".toList) = ["ab".toList] ∧
    parse_quotes ("a \"b c\" d\"e f\"  g".toList) =
      ["a".toList, "b c".toList, "de f".toList, "g".toList] := by
  decide

/-- C7: at end of input a non-empty buffer is flushed as a final token
regardless of state; `parse_quotes` on the empty and all-space strings
returns the empty sequence; an unterminated trailing quote keeps the
accumulated content; and no empty token is ever emitted. -/
theorem c7_terminal_flush :
    (∀ (st : QState) (buf : List Char), buf ≠ [] → parseQuotesAux st buf [] = [buf]) ∧
    parse_quotes ("".toList) = [] ∧
    parse_quotes ("   ".toList) = [] ∧
    parse_quotes ("\"a b".toList) = ["a b".toList] ∧
    (∀ (s : List Char), ∀ t ∈ parse_quotes s, t ≠ []) := by
  refine ⟨?_, by decide, by decide, by decide, ?_⟩
  · intro st buf h
    rw [parseQuotesAux_nil, if_neg h]
  · intro s t ht
    exact (parseQuotesAux_tokens_wf s QState.Outside [] (by simp) t ht).1

/-- Witness for C7: the flush-at-end rule applied in `Inside` state with the
concrete non-empty buffer `['a']`. -/
theorem c7_terminal_flush_witness :
    parseQuotesAux QState.Inside ['a'] [] = [['a']] :=
  c7_terminal_flush.1 QState.Inside ['a'] (by decide)

/-! ## Mention/reference extractors -/

/-- Decimal value of a digit run (most significant digit first). -/
def digitsVal (D : List Char) : Nat :=
  D.foldl (fun a c => a * 10 + (c.toNat - 48)) 0

/-- Modelled from the spec: the shared numeric-parsing helper of the four
extractors, whose Rust source is not among the provided files.  The run must
be a non-empty, purely decimal-digit sequence whose value fits in an
unsigned 64-bit integer; otherwise the result is absent. -/
def parseU64 (s : List Char) : Option Nat :=
  if s = [] then none
  else if s.all (fun c => c.isDigit) then
    if digitsVal s < 2 ^ 64 then some (digitsVal s) else none
  else none

/-- Strip an exact expected run of leading characters, or fail. -/
def dropPre : List Char → List Char → Option (List Char)
  | [], s => some s
  | _ :: _, [] => none
  | p :: ps, c :: cs => if c = p then dropPre ps cs else none

/-- Modelled from the spec: a fixed-syntax marker parse — the exact leading
run `pre`, then a digit run, then a final `>`. -/
def parseMarker (pre s : List Char) : Option Nat :=
  (dropPre pre s).bind (fun rest =>
    if rest.getLast? = some '>' then parseU64 rest.dropLast else none)

/-- Modelled from the spec: `parse_username` accepts exactly `<@` + digits +
`>` or `<@!` + digits + `>`. -/
def parse_username (s : List Char) : Option Nat :=
  match parseMarker ['<', '@'] s with
  | some n => some n
  | none => parseMarker ['<', '@', '!'] s

/-- Modelled from the spec: `parse_role` accepts exactly `<@&` + digits + `>`. -/
def parse_role (s : List Char) : Option Nat :=
  parseMarker ['<', '@', '&'] s

/-- Modelled from the spec: `parse_channel` accepts exactly `<#` + digits + `>`. -/
def parse_channel (s : List Char) : Option Nat :=
  parseMarker ['<', '#'] s

/-- Split a character list at its first `:`, or fail when there is none. -/
def splitColon : List Char → Option (List Char × List Char)
  | [] => none
  | c :: cs =>
    if c = ':' then some ([], cs)
    else
      match splitColon cs with
      | some p => some (c :: p.1, p.2)
      | none => none

/-- Modelled from the spec: `parse_emoji` accepts exactly `<:` + name + `:`
+ digits + `>` where the name is one or more characters none of which is
`:`; it splits at the first `:` after position 2 and returns the name
unchanged together with the parsed id. -/
def parse_emoji (s : List Char) : Option (List Char × Nat) :=
  (dropPre ['<', ':'] s).bind (fun rest =>
    (splitColon rest).bind (fun p =>
      if p.1 = [] then none
      else if p.2.getLast? = some '>' then
        (parseU64 p.2.dropLast).map (fun n => (p.1, n))
      else none))

/-- Modelled from the spec: `parse_invite` returns everything after the last
`/`, or the whole string when it contains no `/`. -/
def parse_invite (s : List Char) : List Char :=
  (s.reverse.takeWhile (fun c => c ≠ '/')).reverse

/-- `digitsVal` is the standard base-10 value of the digit codes. -/
theorem digitsVal_eq_ofDigits (D : List Char) :
    digitsVal D = Nat.ofDigits 10 ((D.map (fun c => c.toNat - 48)).reverse) := by
  induction D using List.reverseRecOn with
  | nil => simp [digitsVal, Nat.ofDigits]
  | append_singleton E c ih =>
    have hl : digitsVal (E ++ [c]) = digitsVal E * 10 + (c.toNat - 48) := by
      simp [digitsVal, List.foldl_append]
    rw [hl, ih]
    simp [List.map_append, Nat.ofDigits_cons]
    ring

/-- Stripping an exact leading run succeeds exactly on strings that start
with that run. -/
theorem dropPre_eq_some :
    ∀ (pre s r : List Char), dropPre pre s = some r ↔ s = pre ++ r
  | [], s, r => by simp [dropPre, eq_comm]
  | p :: ps, [], r => by simp [dropPre]
  | p :: ps, c :: cs, r => by
    simp only [dropPre, List.cons_append]
    by_cases h : c = p
    · subst h
      simp [dropPre_eq_some ps cs r]
    · simp [h, Ne.symm h]

/-- Success characterization of the shared numeric helper. -/
theorem parseU64_eq_some (D : List Char) (n : Nat) :
    parseU64 D = some n ↔
      D ≠ [] ∧ (∀ c ∈ D, c.isDigit) ∧ digitsVal D < 2 ^ 64 ∧ n = digitsVal D := by
  unfold parseU64
  rcases eq_or_ne D [] with h0 | h0
  · simp [h0]
  · rw [if_neg h0]
    by_cases h1 : D.all (fun c => c.isDigit)
    · rw [if_pos h1]
      have h1' : ∀ c ∈ D, c.isDigit := List.all_eq_true.mp h1
      by_cases h2 : digitsVal D < 2 ^ 64
      · rw [if_pos h2]
        constructor
        · intro h
          exact ⟨h0, h1', h2, (Option.some.inj h).symm⟩
        · rintro ⟨-, -, -, rfl⟩
          rfl
      · rw [if_neg h2]
        constructor
        · intro h
          exact absurd h (by simp)
        · rintro ⟨-, -, hlt, -⟩
          exact absurd hlt h2
    · have h1' : ¬ ∀ c ∈ D, c.isDigit := fun hh => h1 (List.all_eq_true.mpr hh)
      rw [if_neg h1]
      constructor
      · intro h
        exact absurd h (by simp)
      · rintro ⟨-, hall, -, -⟩
        exact absurd hall h1'

/-- A run whose value exceeds the unsigned 64-bit range is rejected. -/
theorem parseU64_overflow (D : List Char) (h2 : 2 ^ 64 ≤ digitsVal D) :
    parseU64 D = none := by
  unfold parseU64
  rcases eq_or_ne D [] with h0 | h0
  · simp [h0]
  · rw [if_neg h0]
    by_cases h1 : D.all (fun c => c.isDigit)
    · rw [if_pos h1, if_neg (by omega)]
    · rw [if_neg h1]

/-- A run containing any non-digit character is rejected. -/
theorem parseU64_of_not_digit (D : List Char) (c : Char) (hc : c ∈ D)
    (hd : ¬ c.isDigit) : parseU64 D = none := by
  unfold parseU64
  rcases eq_or_ne D [] with h0 | h0
  · simp [h0]
  · rw [if_neg h0, if_neg (fun h => hd (List.all_eq_true.mp h c hc))]

/-- The empty run is rejected. -/
theorem parseU64_nil : parseU64 [] = none := rfl

/-- Success characterization of a fixed-prefix marker parse. -/
theorem parseMarker_eq_some (pre s : List Char) (n : Nat) :
    parseMarker pre s = some n ↔
      ∃ D, s = pre ++ D ++ ['>'] ∧ parseU64 D = some n := by
  unfold parseMarker
  rw [Option.bind_eq_some]
  constructor
  · rintro ⟨rest, hdp, hif⟩
    by_cases hg : rest.getLast? = some '>'
    · rw [if_pos hg] at hif
      refine ⟨rest.dropLast, ?_, hif⟩
      rw [(dropPre_eq_some pre s rest).mp hdp, List.append_assoc]
      congr 1
      exact (List.dropLast_append_getLast? '>' hg).symm
    · rw [if_neg hg] at hif
      exact absurd hif (by simp)
  · rintro ⟨D, rfl, hD⟩
    refine ⟨D ++ ['>'], ?_, ?_⟩
    · rw [dropPre_eq_some, List.append_assoc]
    · simp [List.getLast?_concat, List.dropLast_concat, hD]

/-- Direct evaluation of a marker parse on its own exact shape. -/
theorem parseMarker_self (pre D : List Char) :
    parseMarker pre (pre ++ D ++ ['>']) = parseU64 D := by
  unfold parseMarker
  have hdp : dropPre pre (pre ++ D ++ ['>']) = some (D ++ ['>']) := by
    rw [dropPre_eq_some, List.append_assoc]
  rw [hdp, Option.some_bind]
  simp [List.getLast?_concat, List.dropLast_concat]

/-- Splitting at the first colon: success characterization. -/
theorem splitColon_eq_some :
    ∀ (l a b : List Char), splitColon l = some (a, b) →
      l = a ++ ':' :: b ∧ ':' ∉ a
  | [], a, b => by simp [splitColon]
  | c :: cs, a, b => by
    simp only [splitColon]
    by_cases hc : c = ':'
    · subst hc
      rw [if_pos rfl]
      intro h
      have he := Option.some.inj h
      obtain ⟨rfl, rfl⟩ : ([] : List Char) = a ∧ cs = b :=
        ⟨congrArg Prod.fst he, congrArg Prod.snd he⟩
      exact ⟨rfl, by simp⟩
    · rw [if_neg hc]
      cases hs : splitColon cs with
      | none => simp
      | some p =>
        intro h
        have he := Option.some.inj h
        obtain ⟨rfl, rfl⟩ : c :: p.1 = a ∧ p.2 = b :=
          ⟨congrArg Prod.fst he, congrArg Prod.snd he⟩
        obtain ⟨hl, hni⟩ := splitColon_eq_some cs p.1 p.2 (by rw [hs])
        refine ⟨by rw [hl]; simp, ?_⟩
        simp only [List.mem_cons]
        rintro (h' | h')
        · exact hc h'.symm
        · exact hni h'

/-- Splitting at the first colon of an explicit split shape. -/
theorem splitColon_append :
    ∀ (a : List Char), ':' ∉ a → ∀ (b : List Char),
      splitColon (a ++ ':' :: b) = some (a, b)
  | [], _, b => by simp [splitColon]
  | c :: a, h, b => by
    have hc : c ≠ ':' := fun e => h (by simp [e])
    have ha : ':' ∉ a := fun hx => h (List.mem_cons_of_mem _ hx)
    simp only [List.cons_append, splitColon, if_neg hc, List.append_eq,
      splitColon_append a ha b]

/-- A colon-free list does not split. -/
theorem splitColon_eq_none (l : List Char) (h : ':' ∉ l) : splitColon l = none := by
  induction l with
  | nil => rfl
  | cons c cs ih =>
    have hc : c ≠ ':' := fun e => h (by simp [e])
    have hcs : ':' ∉ cs := fun hx => h (List.mem_cons_of_mem _ hx)
    simp [splitColon, if_neg hc, ih hcs]

/-- Success characterization of the emoji extractor. -/
theorem parse_emoji_eq_some (s name : List Char) (n : Nat) :
    parse_emoji s = some (name, n) ↔
      ∃ D, name ≠ [] ∧ ':' ∉ name ∧ parseU64 D = some n ∧
        s = ['<', ':'] ++ name ++ ':' :: D ++ ['>'] := by
  unfold parse_emoji
  rw [Option.bind_eq_some]
  constructor
  · rintro ⟨rest, hdp, h⟩
    rw [Option.bind_eq_some] at h
    obtain ⟨p, hsc, h⟩ := h
    obtain ⟨hrest, hni⟩ := splitColon_eq_some rest p.1 p.2 (by rw [hsc])
    by_cases hne : p.1 = []
    · rw [if_pos hne] at h
      exact absurd h (by simp)
    · rw [if_neg hne] at h
      by_cases hg : p.2.getLast? = some '>'
      · rw [if_pos hg, Option.map_eq_some'] at h
        obtain ⟨m, hu, he⟩ := h
        obtain ⟨rfl, rfl⟩ : p.1 = name ∧ m = n :=
          ⟨congrArg Prod.fst he, congrArg Prod.snd he⟩
        refine ⟨p.2.dropLast, hne, hni, hu, ?_⟩
        rw [(dropPre_eq_some ['<', ':'] s rest).mp hdp, hrest]
        have hp2 : p.2 = p.2.dropLast ++ ['>'] :=
          (List.dropLast_append_getLast? '>' hg).symm
        rw [hp2]
        simp
      · rw [if_neg hg] at h
        exact absurd h (by simp)
  · rintro ⟨D, hne, hni, hD, rfl⟩
    refine ⟨name ++ ':' :: (D ++ ['>']), by rw [dropPre_eq_some]; simp, ?_⟩
    rw [Option.bind_eq_some]
    refine ⟨(name, D ++ ['>']), splitColon_append name hni (D ++ ['>']), ?_⟩
    rw [if_neg hne]
    simp [List.getLast?_concat, List.dropLast_concat, hD]

/-- When the plain `<@` form matches, `parse_username` returns its value. -/
theorem parse_username_of_first (s : List Char) (n : Nat)
    (h : parseMarker ['<', '@'] s = some n) : parse_username s = some n := by
  unfold parse_username
  rw [h]

/-- When the plain `<@` form fails, `parse_username` falls back to `<@!`. -/
theorem parse_username_of_second (s : List Char)
    (h : parseMarker ['<', '@'] s = none) :
    parse_username s = parseMarker ['<', '@', '!'] s := by
  unfold parse_username
  rw [h]

/-- The numeric helper succeeds on a valid run, returning its exact value. -/
theorem parseU64_of_goodRun (D : List Char) (h0 : D ≠ [])
    (h1 : ∀ c ∈ D, c.isDigit) (h2 : digitsVal D < 2 ^ 64) :
    parseU64 D = some (digitsVal D) :=
  (parseU64_eq_some D (digitsVal D)).mpr ⟨h0, h1, h2, rfl⟩

/-- The plain `<@` form rejects a `<@!` marker: its run starts with `!`. -/
theorem parseMarker_user_bang_none (D : List Char) :
    parseMarker ['<', '@'] (['<', '@', '!'] ++ D ++ ['>']) = none := by
  have he : (['<', '@', '!'] ++ D ++ ['>'] : List Char) =
      ['<', '@'] ++ ('!' :: D) ++ ['>'] := by simp
  rw [he, parseMarker_self]
  exact parseU64_of_not_digit ('!' :: D) '!' (by simp) (by decide)

/-- A `<@` marker whose run starts with a digit is not a `<@!` marker. -/
theorem dropPre_bang_digits (D E : List Char) (hd : ∀ c ∈ D, c.isDigit)
    (hne : D ≠ []) :
    dropPre ['<', '@', '!'] (['<', '@'] ++ D ++ E) = none := by
  cases D with
  | nil => exact absurd rfl hne
  | cons c D' =>
    have hc : c ≠ '!' := by
      intro e
      have hdig := hd c (by simp)
      rw [e] at hdig
      exact absurd hdig (by decide)
    simp [dropPre, hc]

/-- C2: for every non-empty decimal digit run `D` whose value fits in an
unsigned 64-bit integer, `parse_username` on `<@D>` and `<@!D>`,
`parse_role` on `<@&D>` and `parse_channel` on `<#D>` all return `D`'s
numeric value, which is the standard base-10 value of the run. -/
theorem c2_marker_values (D : List Char) (h0 : D ≠ [])
    (h1 : ∀ c ∈ D, c.isDigit) (h2 : digitsVal D < 2 ^ 64) :
    parse_username (['<', '@'] ++ D ++ ['>']) = some (digitsVal D) ∧
    parse_username (['<', '@', '!'] ++ D ++ ['>']) = some (digitsVal D) ∧
    parse_role (['<', '@', '&'] ++ D ++ ['>']) = some (digitsVal D) ∧
    parse_channel (['<', '#'] ++ D ++ ['>']) = some (digitsVal D) ∧
    digitsVal D = Nat.ofDigits 10 ((D.map (fun c => c.toNat - 48)).reverse) := by
  have hgood := parseU64_of_goodRun D h0 h1 h2
  refine ⟨?_, ?_, ?_, ?_, digitsVal_eq_ofDigits D⟩
  · refine parse_username_of_first _ _ ?_
    rw [parseMarker_self]
    exact hgood
  · rw [parse_username_of_second _ (parseMarker_user_bang_none D), parseMarker_self]
    exact hgood
  · unfold parse_role
    rw [parseMarker_self]
    exact hgood
  · unfold parse_channel
    rw [parseMarker_self]
    exact hgood

/-- Witness for C2 at the concrete marker `<@12345>`. -/
theorem c2_marker_values_witness :
    parse_username (['<', '@'] ++ ['1', '2', '3', '4', '5'] ++ ['>']) =
      some (digitsVal ['1', '2', '3', '4', '5']) :=
  (c2_marker_values ['1', '2', '3', '4', '5'] (by decide) (by decide) (by decide)).1

/-- A valid digit run: non-empty, purely decimal, value within u64 range. -/
def goodRun (D : List Char) : Prop :=
  D ≠ [] ∧ (∀ c ∈ D, c.isDigit) ∧ digitsVal D < 2 ^ 64

/-- Exact shape accepted by `parse_username` (spec §4.1). -/
def shapeUser (s : List Char) : Prop :=
  ∃ D, goodRun D ∧
    (s = ['<', '@'] ++ D ++ ['>'] ∨ s = ['<', '@', '!'] ++ D ++ ['>'])

/-- Exact shape accepted by `parse_role` (spec §4.1). -/
def shapeRole (s : List Char) : Prop :=
  ∃ D, goodRun D ∧ s = ['<', '@', '&'] ++ D ++ ['>']

/-- Exact shape accepted by `parse_channel` (spec §4.1). -/
def shapeChannel (s : List Char) : Prop :=
  ∃ D, goodRun D ∧ s = ['<', '#'] ++ D ++ ['>']

/-- Exact shape accepted by `parse_emoji` (spec §4.1). -/
def shapeEmoji (s : List Char) : Prop :=
  ∃ name D, name ≠ [] ∧ ':' ∉ name ∧ goodRun D ∧
    s = ['<', ':'] ++ name ++ ':' :: D ++ ['>']

/-- A successful marker parse exposes the underlying valid digit run. -/
theorem parseMarker_shape (pre s : List Char) (n : Nat)
    (h : parseMarker pre s = some n) :
    ∃ D, goodRun D ∧ s = pre ++ D ++ ['>'] ∧ n = digitsVal D := by
  obtain ⟨D, rfl, hD⟩ := (parseMarker_eq_some pre s n).mp h
  obtain ⟨h0, h1, h2, h3⟩ := (parseU64_eq_some D n).mp hD
  exact ⟨D, ⟨h0, h1, h2⟩, rfl, h3⟩

/-- A successful `parse_username` means the input had one of the two exact
user-marker shapes. -/
theorem parse_username_shape (s : List Char) (n : Nat)
    (h : parse_username s = some n) : shapeUser s := by
  cases hm : parseMarker ['<', '@'] s with
  | some m =>
    obtain ⟨D, hg, hs, -⟩ := parseMarker_shape ['<', '@'] s m hm
    exact ⟨D, hg, Or.inl hs⟩
  | none =>
    rw [parse_username_of_second s hm] at h
    obtain ⟨D, hg, hs, -⟩ := parseMarker_shape ['<', '@', '!'] s n h
    exact ⟨D, hg, Or.inr hs⟩

/-- C3: every input that does not match the exact marker shape of an
extractor yields an absent result; the extractors are total functions into
`Option`, so no exception or abort is possible. -/
theorem c3_nonmatching_absent :
    (∀ s, ¬ shapeUser s → parse_username s = none) ∧
    (∀ s, ¬ shapeRole s → parse_role s = none) ∧
    (∀ s, ¬ shapeChannel s → parse_channel s = none) ∧
    (∀ s, ¬ shapeEmoji s → parse_emoji s = none) := by
  refine ⟨?_, ?_, ?_, ?_⟩
  · intro s hns
    cases h : parse_username s with
    | none => rfl
    | some n => exact absurd (parse_username_shape s n h) hns
  · intro s hns
    cases h : parse_role s with
    | none => rfl
    | some n =>
      obtain ⟨D, hg, hs, -⟩ := parseMarker_shape ['<', '@', '&'] s n h
      exact absurd ⟨D, hg, hs⟩ hns
  · intro s hns
    cases h : parse_channel s with
    | none => rfl
    | some n =>
      obtain ⟨D, hg, hs, -⟩ := parseMarker_shape ['<', '#'] s n h
      exact absurd ⟨D, hg, hs⟩ hns
  · intro s hns
    cases h : parse_emoji s with
    | none => rfl
    | some p =>
      obtain ⟨D, hne, hni, hD, hs⟩ := (parse_emoji_eq_some s p.1 p.2).mp (by rw [h])
      obtain ⟨h0, h1, h2, -⟩ := (parseU64_eq_some D p.2).mp hD
      exact absurd ⟨p.1, D, hne, hni, ⟨h0, h1, h2⟩, hs⟩ hns

/-- Witness for C3: the non-marker input `hello` yields absence. -/
theorem c3_nonmatching_absent_witness :
    parse_username ("hello".toList) = none := by
  refine c3_nonmatching_absent.1 ("hello".toList) ?_
  rintro ⟨D, -, h | h⟩ <;>
    · injection h with h1 h2
      exact absurd h1 (by decide)

/-- C4: the shared numeric step accepts only a non-empty, purely decimal
run that fits in an unsigned 64-bit integer, and on success returns its
exact (never partial or truncated) value; for any run `D` whose value
overflows 64 bits, all four extractors reject the corresponding markers. -/
theorem c4_numeric_step (D : List Char) (hd : ∀ c ∈ D, c.isDigit)
    (hov : 2 ^ 64 ≤ digitsVal D) :
    parseU64 [] = none ∧
    (∀ (E : List Char) (c : Char), c ∈ E → ¬ c.isDigit → parseU64 E = none) ∧
    (∀ (E : List Char) (n : Nat), parseU64 E = some n →
      E ≠ [] ∧ (∀ c ∈ E, c.isDigit) ∧ n = digitsVal E ∧ n < 2 ^ 64) ∧
    parseU64 D = none ∧
    parse_username (['<', '@'] ++ D ++ ['>']) = none ∧
    parse_username (['<', '@', '!'] ++ D ++ ['>']) = none ∧
    parse_role (['<', '@', '&'] ++ D ++ ['>']) = none ∧
    parse_channel (['<', '#'] ++ D ++ ['>']) = none ∧
    (∀ name, name ≠ [] → ':' ∉ name →
      parse_emoji (['<', ':'] ++ name ++ ':' :: D ++ ['>']) = none) := by
  have hDne : D ≠ [] := by
    intro h
    rw [h] at hov
    exact absurd hov (by decide)
  have hnone := parseU64_overflow D hov
  refine ⟨parseU64_nil, ?_, ?_, hnone, ?_, ?_, ?_, ?_, ?_⟩
  · intro E c hc hnd
    exact parseU64_of_not_digit E c hc hnd
  · intro E n h
    obtain ⟨h0, h1, h2, h3⟩ := (parseU64_eq_some E n).mp h
    exact ⟨h0, h1, h3, h3 ▸ h2⟩
  · rw [parse_username_of_second _ (by rw [parseMarker_self]; exact hnone)]
    unfold parseMarker
    rw [dropPre_bang_digits D ['>'] hd hDne, Option.none_bind]
  · rw [parse_username_of_second _ (parseMarker_user_bang_none D), parseMarker_self]
    exact hnone
  · unfold parse_role
    rw [parseMarker_self]
    exact hnone
  · unfold parse_channel
    rw [parseMarker_self]
    exact hnone
  · intro name hne hni
    unfold parse_emoji
    rw [show dropPre ['<', ':'] (['<', ':'] ++ name ++ ':' :: D ++ ['>']) =
        some (name ++ ':' :: (D ++ ['>'])) from by rw [dropPre_eq_some]; simp,
      Option.some_bind, splitColon_append name hni (D ++ ['>']), Option.some_bind,
      if_neg hne]
    simp [List.getLast?_concat, List.dropLast_concat, hnone]

/-- Witness for C4 at the 21-digit run with value `10^20`, which exceeds
the unsigned 64-bit range. -/
theorem c4_numeric_step_witness :
    parseU64 ['1', '0', '0', '0', '0', '0', '0', '0', '0', '0', '0',
      '0', '0', '0', '0', '0', '0', '0', '0', '0', '0'] = none :=
  (c4_numeric_step _ (by decide) (by decide)).2.2.2.1

/-- C5: `parse_emoji` accepts exactly `<:` + name + `:` + digits + `>` with
a non-empty colon-free name, splitting at the first `:` after position 2;
it returns the name unchanged with the parsed id (concretely
`<:name:12345>` yields `(name, 12345)`), and any string with fewer than two
`:` characters yields absence. -/
theorem c5_emoji (name D : List Char) (hne : name ≠ []) (hni : ':' ∉ name)
    (h0 : D ≠ []) (h1 : ∀ c ∈ D, c.isDigit) (h2 : digitsVal D < 2 ^ 64) :
    parse_emoji (['<', ':'] ++ name ++ ':' :: D ++ ['>']) =
      some (name, digitsVal D) ∧
    parse_emoji ("<:name:12345>".toList) = some ("name".toList, 12345) ∧
    (∀ (s nm : List Char) (n : Nat), parse_emoji s = some (nm, n) →
      ∃ E, nm ≠ [] ∧ ':' ∉ nm ∧ n = digitsVal E ∧
        s = ['<', ':'] ++ nm ++ ':' :: E ++ ['>']) ∧
    (∀ s : List Char, s.count ':' < 2 → parse_emoji s = none) := by
  refine ⟨?_, by decide, ?_, ?_⟩
  · exact (parse_emoji_eq_some _ name (digitsVal D)).mpr
      ⟨D, hne, hni, parseU64_of_goodRun D h0 h1 h2, rfl⟩
  · intro s nm n h
    obtain ⟨E, hne', hni', hE, hs⟩ := (parse_emoji_eq_some s nm n).mp h
    obtain ⟨-, -, -, h3⟩ := (parseU64_eq_some E n).mp hE
    exact ⟨E, hne', hni', h3, hs⟩
  · intro s hcount
    cases h : parse_emoji s with
    | none => rfl
    | some p =>
      obtain ⟨E, hne', hni', hE, hs⟩ :=
        (parse_emoji_eq_some s p.1 p.2).mp (by rw [h])
      rw [hs] at hcount
      simp [List.count_append, List.count_cons] at hcount
      exact absurd hcount (by omega)

/-- Witness for C5 at the concrete emoji marker `<:ab:7>`. -/
theorem c5_emoji_witness :
    parse_emoji (['<', ':'] ++ ['a', 'b'] ++ ':' :: ['7'] ++ ['>']) =
      some (['a', 'b'], digitsVal ['7']) :=
  (c5_emoji ['a', 'b'] ['7'] (by decide) (by decide) (by decide) (by decide)
    (by decide)).1

/-! ## Invite-code extractor -/

/-- A list containing a slash splits as its slash-free tail after the last
slash, preceded by that slash. -/
theorem takeWhile_slash_split :
    ∀ (l : List Char), '/' ∈ l →
      ∃ t, l = l.takeWhile (fun c => decide (c ≠ '/')) ++ '/' :: t
  | [], h => absurd h (by simp)
  | c :: l, h => by
    by_cases hc : c = '/'
    · subst hc
      refine ⟨l, ?_⟩
      rw [List.takeWhile_cons]
      simp
    · have hmem : '/' ∈ l := by
        rcases List.mem_cons.mp h with h' | h'
        · exact absurd h'.symm hc
        · exact h'
      obtain ⟨t, ht⟩ := takeWhile_slash_split l hmem
      refine ⟨t, ?_⟩
      have hpc : (fun x => decide (x ≠ '/')) c = true := by simp [hc]
      rw [List.takeWhile_cons, if_pos hpc, List.cons_append, ← ht]

/-- On an input containing a slash, `parse_invite` is exactly the suffix
after the last slash. -/
theorem parse_invite_split (s : List Char) (h : '/' ∈ s) :
    ∃ pre, s = pre ++ '/' :: parse_invite s ∧ '/' ∉ parse_invite s := by
  have hrev : '/' ∈ s.reverse := List.mem_reverse.mpr h
  obtain ⟨t, ht⟩ := takeWhile_slash_split s.reverse hrev
  refine ⟨t.reverse, ?_, ?_⟩
  · unfold parse_invite
    conv_lhs => rw [← List.reverse_reverse s, ht]
    rw [List.reverse_append]
    simp
  · unfold parse_invite
    intro hx
    have := List.mem_takeWhile_imp (List.mem_reverse.mp hx)
    simp at this

/-- Without a slash, `parse_invite` returns the whole input unchanged. -/
theorem parse_invite_no_slash (s : List Char) (h : '/' ∉ s) :
    parse_invite s = s := by
  unfold parse_invite
  have hall : s.reverse.takeWhile (fun c => decide (c ≠ '/')) = s.reverse := by
    refine List.takeWhile_eq_self_iff.mpr ?_
    intro x hx
    simp only [ne_eq, decide_eq_true_eq]
    rintro rfl
    exact h (List.mem_reverse.mp hx)
  rw [hall, List.reverse_reverse]

/-- C6: `parse_invite` returns the substring after the last `/` when one is
present (for the three invite forms it yields `abc`), returns the whole
input unchanged when no `/` is present, and is total. -/
theorem c6_invite :
    (∀ s : List Char, '/' ∈ s →
      ∃ pre, s = pre ++ '/' :: parse_invite s ∧ '/' ∉ parse_invite s) ∧
    (∀ s : List Char, '/' ∉ s → parse_invite s = s) ∧
    parse_invite ("https://discord.gg/abc".toList) = "abc".toList ∧
    parse_invite ("http://discord.gg/abc".toList) = "abc".toList ∧
    parse_invite ("discord.gg/abc".toList) = "abc".toList :=
  ⟨parse_invite_split, parse_invite_no_slash, by decide, by decide, by decide⟩

/-- Witness for C6: on the slash-free input `xyz` the whole input is
returned. -/
theorem c6_invite_witness :
    parse_invite ("xyz".toList) = "xyz".toList :=
  c6_invite.2.1 ("xyz".toList) (by decide)

/-! ## Message builder (src/builder/create_message.rs) -/

/-- The serde_json values the builder stores. -/
inductive Value where
  | bool (b : Bool)
  | str (s : String)
  | obj (fields : List (String × Value))

/-- `BTreeMap::insert`: replace the value at an existing key, otherwise
insert at the key-ordered position. -/
def mapInsert (k : String) (v : Value) : List (String × Value) → List (String × Value)
  | [] => [(k, v)]
  | (a, b) :: rest =>
    if k < a then (k, v) :: (a, b) :: rest
    else if k = a then (k, v) :: rest
    else (a, b) :: mapInsert k v rest

/-- `BTreeMap::get`: the value stored at a key, if any. -/
def mapLookup (k : String) : List (String × Value) → Option Value
  | [] => none
  | (a, b) :: rest => if k = a then some b else mapLookup k rest

/-- Inserting a key affects exactly that key's lookup. -/
theorem mapLookup_mapInsert (k k' : String) (v : Value) :
    ∀ m : List (String × Value),
      mapLookup k' (mapInsert k v m) =
        if k' = k then some v else mapLookup k' m
  | [] => by
    by_cases h : k' = k
    · simp [mapInsert, mapLookup, h]
    · simp [mapInsert, mapLookup, h]
  | (a, b) :: rest => by
    unfold mapInsert
    by_cases hlt : k < a
    · rw [if_pos hlt]
      by_cases h : k' = k
      · simp [mapLookup, h]
      · simp [mapLookup, h]
    · rw [if_neg hlt]
      by_cases heq : k = a
      · rw [if_pos heq]
        subst heq
        by_cases h : k' = k
        · simp [mapLookup, h]
        · simp [mapLookup, h]
      · rw [if_neg heq]
        have ihr := mapLookup_mapInsert k k' v rest
        by_cases ha : k' = a
        · subst ha
          have hkk : k' ≠ k := fun e => heq e.symm
          simp [mapLookup, hkk]
        · simp [mapLookup, ha, ihr]

/-- Modelled from the spec: `CreateEmbed`'s own source is not among the
provided files; only its underlying map is needed here, and its default is
left as the empty map. -/
structure CreateEmbed where
  fields : List (String × Value)

/-- Modelled from the spec: the default `CreateEmbed` map (opaque to the
builder claims, which only concern the `embed` key itself). -/
def CreateEmbed.default : CreateEmbed := ⟨[]⟩

/-- `CreateMessage`: a builder over a `BTreeMap<String, Value>`. -/
structure CreateMessage where
  map : List (String × Value)

/-- `CreateMessage::content`: insert the `content` key. -/
def CreateMessage.content (m : CreateMessage) (s : String) : CreateMessage :=
  ⟨mapInsert "content" (Value.str s) m.map⟩

/-- `CreateMessage::embed`: build an embed from the default and insert it
at the `embed` key. -/
def CreateMessage.embed (m : CreateMessage) (f : CreateEmbed → CreateEmbed) :
    CreateMessage :=
  ⟨mapInsert "embed" (Value.obj (f CreateEmbed.default).fields) m.map⟩

/-- `CreateMessage::nonce`: insert the `nonce` key. -/
def CreateMessage.nonce (m : CreateMessage) (s : String) : CreateMessage :=
  ⟨mapInsert "nonce" (Value.str s) m.map⟩

/-- `CreateMessage::tts`: insert the `tts` key. -/
def CreateMessage.tts (m : CreateMessage) (b : Bool) : CreateMessage :=
  ⟨mapInsert "tts" (Value.bool b) m.map⟩

/-- `CreateMessage::default`: a map with the single entry `tts ↦ false`. -/
def CreateMessage.default : CreateMessage :=
  ⟨mapInsert "tts" (Value.bool false) []⟩

/-- C9: the default builder map holds exactly the entry `tts ↦ false`, and
each builder method (`content`, `embed`, `nonce`, `tts`) sets exactly its
own key and leaves the lookup of every other key unchanged. -/
theorem c9_builder_frame :
    CreateMessage.default.map = [("tts", Value.bool false)] ∧
    (∀ (m : CreateMessage) (s : String),
      mapLookup "content" (CreateMessage.content m s).map = some (Value.str s) ∧
      ∀ k, k ≠ "content" →
        mapLookup k (CreateMessage.content m s).map = mapLookup k m.map) ∧
    (∀ (m : CreateMessage) (f : CreateEmbed → CreateEmbed),
      mapLookup "embed" (CreateMessage.embed m f).map =
        some (Value.obj (f CreateEmbed.default).fields) ∧
      ∀ k, k ≠ "embed" →
        mapLookup k (CreateMessage.embed m f).map = mapLookup k m.map) ∧
    (∀ (m : CreateMessage) (s : String),
      mapLookup "nonce" (CreateMessage.nonce m s).map = some (Value.str s) ∧
      ∀ k, k ≠ "nonce" →
        mapLookup k (CreateMessage.nonce m s).map = mapLookup k m.map) ∧
    (∀ (m : CreateMessage) (b : Bool),
      mapLookup "tts" (CreateMessage.tts m b).map = some (Value.bool b) ∧
      ∀ k, k ≠ "tts" →
        mapLookup k (CreateMessage.tts m b).map = mapLookup k m.map) := by
  refine ⟨rfl, ?_, ?_, ?_, ?_⟩
  · intro m s
    exact ⟨by simp [CreateMessage.content, mapLookup_mapInsert],
      fun k hk => by simp [CreateMessage.content, mapLookup_mapInsert, hk]⟩
  · intro m f
    exact ⟨by simp [CreateMessage.embed, mapLookup_mapInsert],
      fun k hk => by simp [CreateMessage.embed, mapLookup_mapInsert, hk]⟩
  · intro m s
    exact ⟨by simp [CreateMessage.nonce, mapLookup_mapInsert],
      fun k hk => by simp [CreateMessage.nonce, mapLookup_mapInsert, hk]⟩
  · intro m b
    exact ⟨by simp [CreateMessage.tts, mapLookup_mapInsert],
      fun k hk => by simp [CreateMessage.tts, mapLookup_mapInsert, hk]⟩

/-- Witness for C9: setting `content` on the default builder leaves the
`tts` entry unchanged. -/
theorem c9_builder_frame_witness :
    mapLookup "tts" (CreateMessage.content CreateMessage.default "hi").map =
      mapLookup "tts" CreateMessage.default.map :=
  (c9_builder_frame.2.1 CreateMessage.default "hi").2 "tts" (by decide)

/-! ## Error wrapper (src/src/error.rs) -/

/-- A std io error, embedded by its description string. -/
structure IoError where
  description : String

/-- The error wrapper: a single variant holding an I/O error. -/
inductive Error where
  | Io (inner : IoError)

/-- `StdError::description` for `Error`: the wrapped error's description. -/
def Error.description : Error → String
  | Error.Io inner => inner.description

/-- `Display::fmt` writes exactly `self.description()`. -/
def Error.display (e : Error) : String :=
  Error.description e

/-- `From<IoError>::from` wraps the error in the `Io` variant. -/
def errorFromIo (e : IoError) : Error :=
  Error.Io e

/-- C10: `Error` has exactly the one variant `Io` wrapping an I/O error;
converting an I/O error yields `Error.Io` of it, and Display formatting of
`Error.Io e` produces exactly the wrapped error's description string. -/
theorem c10_error_wrapper :
    (∀ er : Error, ∃ e, er = Error.Io e) ∧
    (∀ e : IoError, errorFromIo e = Error.Io e) ∧
    (∀ e : IoError, Error.display ( Error.Io e) = e.description) := by
  refine ⟨?_, fun e => rfl, fun e => rfl⟩
  intro er
  cases er with
  | Io e => exact ⟨e, rfl⟩

end SerenityUtils
